import Mathlib

/-!
Shallow embedding of `src/match.py` from the TantrixDetection repository.

Tile codes and candidate strings are modelled as `List Char` (Python strings),
color values as `Nat`.  Python code that can raise an exception is modelled
with `Option`: a `none` result marks the exception (`IndexError` in
`get_dist`/`compress`, `ValueError` in `max()` over an empty `Counter` and in
`list.index`).
-/

set_option maxRecDepth 10000

/-- `str(col)` for a single-digit color code (all color codes used by the
program are in `{0, 1, 2, 3, 4}`). -/
def digit_char (col : Nat) : Char := Char.ofNat (48 + col)

/-- The fixed 56-entry tile catalog `tiles_complete` from `src/match.py`. -/
def tiles_complete : List (List Char) :=
  (["112323", "212313", "131322", "112332", "131223", "121332", "113232",
    "112233", "121323", "113223", "131232", "221331", "113322", "121233",
    "232344", "242343", "224343", "332442", "223434", "242433", "232443",
    "223344", "323424", "223443", "232434", "224334", "224433", "242334",
    "114343", "313414", "131344", "114334", "131443", "141334", "113434",
    "114433", "141343", "113443", "131434", "331441", "113344", "141433",
    "112424", "212414", "141422", "112442", "141224", "121442", "114242",
    "112244", "121424", "114224", "141242", "221441", "114422", "121244"]
   : List String).map String.toList

/-- `get_dist(tile, col)`: if `str(col)` does not occur in `tile`, return
`(0, 0)`.  Otherwise collect the indices `r < 6` with `tile[r] == str(col)`
and return `(indices[1] - indices[0], indices[0])`.  Python raises an
`IndexError` when fewer than two such indices exist (the color occurs exactly
once among the first six characters) or when the tile is shorter than six
characters; both are modelled by `none`. -/
def get_dist (tile : List Char) (col : Nat) : Option (Nat × Nat) :=
  if digit_char col ∈ tile then
    if tile.length < 6 then none
    else
      match (List.range 6).filter (fun r => tile.getD r ' ' == digit_char col) with
      | i0 :: i1 :: _ => some (i1 - i0, i0)
      | _ => none
  else some (0, 0)

/-- `shift_tile(tile, offset)`: the list `[tile[(i + offset) % 6] for i in range(6)]`. -/
def shift_tile (tile : List Char) (offset : Nat) : List Char :=
  (List.range 6).map (fun i => tile.getD ((i + offset) % 6) ' ')

/-- The loop body of `sort_sol`: try the colors of `js` in order; the first
color whose distance lies in `{1, 2, 4, 5}` determines the rotation. -/
def sort_sol_go (tile : List Char) : List Nat → Option (List Char)
  | [] => some tile
  | j :: js =>
    match get_dist tile j with
    | none => none
    | some (distance, index) =>
      if distance = 1 ∨ distance = 2 ∨ distance = 4 ∨ distance = 5 then
        if distance < 4 then some (shift_tile tile index)
        else some (shift_tile tile (index + distance))
      else sort_sol_go tile js

/-- `sort_sol(tile)`: rotate the tile encoding into canonical orientation,
scanning colors `1`, `2`, `3` in that order. -/
def sort_sol (tile : List Char) : Option (List Char) :=
  sort_sol_go tile [1, 2, 3]

/-- One raw-observation entry: a plain integer or a two-element choice list. -/
inductive Entry where
  | num (n : Nat)
  | pair (a b : Nat)
deriving DecidableEq, Repr

/-- One step of the branch expansion loop of `preprocess_input`.  A plain
number is appended to every branch.  For a choice list `[a, b]`, every
existing branch `exp` is extended in place by `[a, b]` and three derived
branches `exp ++ [b, a]`, `exp ++ [a]`, `exp ++ [b]` are appended at the end
of the branch list. -/
def expand_step (expanded : List (List Nat)) : Entry → List (List Nat)
  | Entry.num n => expanded.map (fun e => e ++ [n])
  | Entry.pair a b =>
      expanded.map (fun e => e ++ [a, b]) ++
        expanded.flatMap (fun e => [e ++ [b, a], e ++ [a], e ++ [b]])

/-- Adjacent-duplicate collapse, keeping elements different from the last
kept element (`last` is the most recently kept element). -/
def compress_aux (last : Nat) : List Nat → List Nat
  | [] => []
  | x :: xs => if x = last then compress_aux last xs else x :: compress_aux x xs

/-- `compress(seq)` from `preprocess_input`: collapse consecutive duplicates,
then drop the final element when it equals the first (circular collapse).
Python evaluates `seq[0]`, so the empty sequence raises an `IndexError`,
modelled by `none`. -/
def compress (seq : List Nat) : Option (List Nat) :=
  match seq with
  | [] => none
  | s0 :: rest =>
    let c := s0 :: compress_aux s0 rest
    some (if c.getLastD 0 = s0 then c.dropLast else c)

/-- `max(Counter(variant).values())`: the largest multiplicity occurring in
`variant`.  Python's `max` raises a `ValueError` on an empty sequence,
modelled by `none`. -/
def counter_max (v : List Nat) : Option Nat :=
  match v with
  | [] => none
  | _ => some ((v.map (fun x => v.count x)).foldl max 0)

/-- The final selection loop of `preprocess_input`: keep the variants whose
largest color multiplicity is below 3; computing that multiplicity fails on
an empty variant. -/
def select_variants : List (List Nat) → Option (List (List Nat))
  | [] => some []
  | v :: vs =>
    match counter_max v with
    | none => none
    | some m =>
      match select_variants vs with
      | none => none
      | some rest => some (if m < 3 then v :: rest else rest)

/-- Apply `compress` to every branch, propagating the `IndexError` of an
empty branch. -/
def compress_all : List (List Nat) → Option (List (List Nat))
  | [] => some []
  | v :: vs =>
    match compress v with
    | none => none
    | some c =>
      match compress_all vs with
      | none => none
      | some cs => some (c :: cs)

/-- `preprocess_input(raw_input)`: drop zero entries, expand choice lists
into branches, compress every branch, deduplicate, keep the variants of
length `< 7`, keep those in which no color occurs three or more times, and
serialize each survivor as a string of digit characters.  The Python version
deduplicates through an unordered `set`, so only the *set* of returned
variants is specified; this embedding uses `List.dedup`, a deterministic
deduplication. -/
def preprocess_input (raw : List Entry) : Option (List (List Char)) :=
  match compress_all ((raw.filter (fun e => e ≠ Entry.num 0)).foldl expand_step [[]]) with
  | none => none
  | some compressed =>
    match select_variants ((compressed.dedup).filter (fun v => v.length < 7)) with
    | none => none
    | some selected => some (selected.map (fun v => v.map digit_char))

/-- Python dict lookup on the letter-to-color mapping (keys are unique). -/
def lookup_map : List (Char × Char) → Char → Option Char
  | [], _ => none
  | (k, v) :: rest, ch => if ch = k then some v else lookup_map rest ch

/-- `char_inp in used_values`: is a color already bound to some letter? -/
def value_used : List (Char × Char) → Char → Bool
  | [], _ => false
  | (_, v) :: rest, c => if c = v then true else value_used rest c

/-- The binding loop of `match_pattern` over the zipped
`(pattern-letter, input-color)` pairs, threading the mapping. -/
def build_mapping : List (Char × Char) → List (Char × Char) → Option (List (Char × Char))
  | [], m => some m
  | (p, c) :: rest, m =>
    match lookup_map m p with
    | some v => if v = c then build_mapping rest m else none
    | none =>
      if value_used m c then none
      else build_mapping rest ((p, c) :: m)

/-- `expand_pattern(pattern)`: the registry of compact-to-expanded template
forms; an unrecognized pattern expands to itself. -/
def expand_pattern (pattern : List Char) : List Char :=
  if pattern = String.toList "abc" then String.toList "aabbcc"
  else if pattern = String.toList "abcbc" then String.toList "aabcbc"
  else if pattern = String.toList "abcb" then String.toList "aabccb"
  else if pattern = String.toList "abacbc" then String.toList "abacbc"
  else pattern

/-- `''.join(mapping[c] for c in expanded)`: replace every letter of the
expanded pattern by its bound color.  A letter absent from the mapping would
raise a `KeyError` in Python, modelled by `none`; this cannot happen because
every expansion only uses letters of its compact pattern. -/
def map_letters : List Char → List (Char × Char) → Option (List Char)
  | [], _ => some []
  | ch :: rest, m =>
    match lookup_map m ch with
    | none => none
    | some v =>
      match map_letters rest m with
      | none => none
      | some vs => some (v :: vs)

/-- `match_pattern(compressed_input, pattern)`: `None` when the lengths
differ; otherwise build the letter-to-color mapping (failing on a
contradiction or a reused color) and substitute it into the expanded
pattern. -/
def match_pattern (compressed_input pattern : List Char) : Option (List Char) :=
  if compressed_input.length = pattern.length then
    match build_mapping (pattern.zip compressed_input) [] with
    | none => none
    | some m => map_letters (expand_pattern pattern) m
  else none

/-- `rotate_string(s, n) = s[n:] + s[:n]`. -/
def rotate_string (s : List Char) (n : Nat) : List Char := s.drop n ++ s.take n

/-- The default template list of `find_matching_type`. -/
def default_patterns : List (List Char) :=
  [String.toList "abc", String.toList "abcbc", String.toList "abcb",
   String.toList "ababcb"]

/-- `find_matching_type(compressed_input, input_pattern)`: try each pattern
(the explicit one, or the default list) against every left rotation of the
input, returning the first truthy match.  Python's `if match:` treats the
empty string as false, hence the `r = []` filter. -/
def find_matching_type (compressed_input : List Char)
    (input_pattern : Option (List Char)) : Option (List Char) :=
  let known_patterns :=
    match input_pattern with
    | none => default_patterns
    | some p => [p]
  known_patterns.findSome? (fun pattern =>
    (List.range compressed_input.length).findSome? (fun shift =>
      match match_pattern (rotate_string compressed_input shift) pattern with
      | some r => if r = [] then none else some r
      | none => none))

/-- `check_variants(input_variants, input_pattern)`: the first variant whose
`find_matching_type` result is not `None`. -/
def check_variants (input_variants : List (List Char))
    (input_pattern : Option (List Char)) : Option (List Char) :=
  input_variants.findSome? (fun variant =>
    find_matching_type variant input_pattern)

/-- `tiles_complete.index(x)` as an `Option`: position of the first
occurrence, `none` for Python's `ValueError`. -/
def index_of_code : List (List Char) → List Char → Option Nat
  | [], _ => none
  | t :: ts, x => if x = t then some 0 else (index_of_code ts x).map (fun n => n + 1)

/-- The four observable outcomes of `get_tile_number`: returning `None`,
returning an index, the `ValueError` raised by `list.index` on a code that is
absent from the catalog, and the `IndexError` raised inside `sort_sol`. -/
inductive TileLookup where
  | noMatch
  | tileNumber (n : Nat)
  | unknownTileCode
  | sortFailure
deriving DecidableEq, Repr

/-- `get_tile_number(matched_variant)`: `None` propagates; otherwise
standardize with `sort_sol` and look the result up in `tiles_complete`. -/
def get_tile_number (matched_variant : Option (List Char)) : TileLookup :=
  match matched_variant with
  | none => TileLookup.noMatch
  | some v =>
    match sort_sol v with
    | none => TileLookup.sortFailure
    | some std =>
      match index_of_code tiles_complete std with
      | some n => TileLookup.tileNumber n
      | none => TileLookup.unknownTileCode

/-- The raw observation of the end-to-end scenario in `main()`:
`[3, [4, 3], 3, 1, 0, [4, 1], 1, [4, 3]]`. -/
def raw_obs : List Entry :=
  [Entry.num 3, Entry.pair 4 3, Entry.num 3, Entry.num 1, Entry.num 0,
   Entry.pair 4 1, Entry.num 1, Entry.pair 4 3]

/-- The candidate set computed for `raw_obs` (the program does compute one:
`preprocess_input` succeeds on this input). -/
def c1_variants : List (List Char) := (preprocess_input raw_obs).getD []

/-- A full tile code is well-formed when it has six characters and exactly
three distinct colors, each occurring exactly twice. -/
def full_code_wf (v : List Char) : Prop :=
  v.length = 6 ∧ v.dedup.length = 3 ∧ ∀ c ∈ v, v.count c = 2

/-- The four color characters. -/
def color_chars : List Char := ['1', '2', '3', '4']

/-- All 4^6 six-character strings over the color alphabet `{1, 2, 3, 4}`. -/
def codes6 : List (List Char) :=
  color_chars.flatMap (fun a => color_chars.flatMap (fun b => color_chars.flatMap (fun c =>
    color_chars.flatMap (fun d => color_chars.flatMap (fun e =>
      color_chars.map (fun f => [a, b, c, d, e, f]))))))

instance full_code_wf_decidable (v : List Char) : Decidable (full_code_wf v) := by
  unfold full_code_wf
  infer_instance

/-- The input contract for one raw-observation entry: a color code in
`{1, 2, 3, 4}`, the absent marker `0`, or an ambiguous pair of two distinct
colors. -/
def entry_ok : Entry → Prop
  | Entry.num n => n = 0 ∨ n ∈ [1, 2, 3, 4]
  | Entry.pair a b => a ∈ [1, 2, 3, 4] ∧ b ∈ [1, 2, 3, 4] ∧ a ≠ b

instance entry_ok_decidable (e : Entry) : Decidable (entry_ok e) := by
  cases e <;> (unfold entry_ok; infer_instance)

/-- The color values carried by one raw-observation entry. -/
def entry_colors : Entry → List Nat
  | Entry.num n => [n]
  | Entry.pair a b => [a, b]

/-- A letter-to-color mapping is coherent when two of its entries agree on
the letter exactly when they agree on the color (the mapping is an
injective finite map). -/
def map_ok (m : List (Char × Char)) : Prop :=
  ∀ k1 v1 k2 v2, (k1, v1) ∈ m → (k2, v2) ∈ m → (k1 = k2 ↔ v1 = v2)

/-- Membership in `codes6` is exactly being a six-character string over the
color alphabet. -/
lemma mem_codes6_iff (v : List Char) :
    v ∈ codes6 ↔ ∃ a ∈ color_chars, ∃ b ∈ color_chars, ∃ c ∈ color_chars,
      ∃ d ∈ color_chars, ∃ e ∈ color_chars, ∃ f ∈ color_chars,
        v = [a, b, c, d, e, f] := by
  simp only [codes6, List.mem_flatMap, List.mem_map]
  constructor
  · rintro ⟨a, ha, b, hb, c, hc, d, hd, e, he, f, hf, rfl⟩
    exact ⟨a, ha, b, hb, c, hc, d, hd, e, he, f, hf, rfl⟩
  · rintro ⟨a, ha, b, hb, c, hc, d, hd, e, he, f, hf, rfl⟩
    exact ⟨a, ha, b, hb, c, hc, d, hd, e, he, f, hf, rfl⟩

set_option maxHeartbeats 4000000 in
/-- Enumeration: `sort_sol` succeeds on every six-character code over the
color alphabet in which no color of `{1, 2, 3}` occurs exactly once. -/
lemma sort_sol_total_nested :
    ∀ a ∈ color_chars, ∀ b ∈ color_chars, ∀ c ∈ color_chars, ∀ d ∈ color_chars,
      ∀ e ∈ color_chars, ∀ f ∈ color_chars,
        (∀ j ∈ [1, 2, 3], ([a, b, c, d, e, f] : List Char).count (digit_char j) ≠ 1) →
          (sort_sol [a, b, c, d, e, f]).isSome := by decide

set_option maxHeartbeats 4000000 in
/-- Enumeration: on well-formed codes `sort_sol` is idempotent. -/
lemma sort_sol_idem_nested :
    ∀ a ∈ color_chars, ∀ b ∈ color_chars, ∀ c ∈ color_chars, ∀ d ∈ color_chars,
      ∀ e ∈ color_chars, ∀ f ∈ color_chars,
        full_code_wf [a, b, c, d, e, f] →
          (sort_sol [a, b, c, d, e, f]).bind sort_sol = sort_sol [a, b, c, d, e, f] := by
  decide

/-- A well-formed code has no color occurring exactly once. -/
lemma wf_no_single_count (v : List Char) (h : full_code_wf v) :
    ∀ j ∈ [1, 2, 3], v.count (digit_char j) ≠ 1 := by
  intro j _ hcount
  rcases h with ⟨_, _, h2⟩
  by_cases hmem : digit_char j ∈ v
  · have := h2 _ hmem
    omega
  · rw [List.count_eq_zero_of_not_mem hmem] at hcount
    omega

/-- `sort_sol` succeeds on every member of `codes6` in which no color of
`{1, 2, 3}` occurs exactly once. -/
lemma sort_sol_total_of_no_single (v : List Char) (hv : v ∈ codes6)
    (h : ∀ j ∈ [1, 2, 3], v.count (digit_char j) ≠ 1) : (sort_sol v).isSome := by
  rw [mem_codes6_iff] at hv
  obtain ⟨a, ha, b, hb, c, hc, d, hd, e, he, f, hf, rfl⟩ := hv
  exact sort_sol_total_nested a ha b hb c hc d hd e he f hf h

/-- `index_of_code` fails exactly on codes that are absent from the list. -/
lemma index_of_code_eq_none (l : List (List Char)) (x : List Char) (h : x ∉ l) :
    index_of_code l x = none := by
  induction l with
  | nil => rfl
  | cons t ts ih =>
    simp only [List.mem_cons, not_or] at h
    simp only [index_of_code, if_neg h.1, ih h.2, Option.map_none']

/-- C2: for every well-formed six-character code over `{1, 2, 3, 4}`,
canonicalization is idempotent: re-applying `sort_sol` to the result of
`sort_sol` leaves it unchanged. -/
theorem sort_sol_idempotent :
    ∀ v ∈ codes6, full_code_wf v → (sort_sol v).bind sort_sol = sort_sol v := by
  intro v hv hwf
  rw [mem_codes6_iff] at hv
  obtain ⟨a, ha, b, hb, c, hc, d, hd, e, he, f, hf, rfl⟩ := hv
  exact sort_sol_idem_nested a ha b hb c hc d hd e he f hf hwf

/-- C2 witness: idempotence holds at the concrete well-formed code `112323`. -/
theorem sort_sol_idempotent_witness :
    (sort_sol (String.toList "112323")).bind sort_sol
      = sort_sol (String.toList "112323") :=
  sort_sol_idempotent (String.toList "112323") (by decide) (by decide)

/-- C3: every one of the 56 catalog entries is a fixed point of the
canonicalizer `sort_sol`. -/
theorem tiles_complete_fixed_points :
    ∀ t ∈ tiles_complete, sort_sol t = some t := by decide

/-- C3 witness: the first catalog entry `112323` is a fixed point. -/
theorem tiles_complete_fixed_points_witness :
    sort_sol (String.toList "112323") = some (String.toList "112323") :=
  tiles_complete_fixed_points (String.toList "112323") (by decide)

/-- C5 counterexample: `sort_sol` is not total on six-character codes over
the color alphabet.  On `123444`, where color `1` occurs exactly once,
`get_dist` evaluates `indices[1]` of a one-element list, so the Python code
raises an `IndexError` (modelled by `none`). -/
theorem sort_sol_not_total :
    (∀ c ∈ String.toList "123444", c ∈ color_chars) ∧
      sort_sol (String.toList "123444") = none := by decide

/-- C5 amended: `sort_sol` returns a result for every six-character code
over the color alphabet in which no color of `{1, 2, 3}` occurs exactly
once (absent colors are skipped); a color of `{1, 2, 3}` occurring exactly
once can make it fail. -/
theorem sort_sol_total_amended :
    ∀ v ∈ codes6, (∀ j ∈ [1, 2, 3], v.count (digit_char j) ≠ 1) →
      (sort_sol v).isSome :=
  fun v hv h => sort_sol_total_of_no_single v hv h

/-- C5 amended witness: `sort_sol` succeeds on the concrete code `112233`. -/
theorem sort_sol_total_amended_witness :
    (sort_sol (String.toList "112233")).isSome :=
  sort_sol_total_amended (String.toList "112233") (by decide) (by decide)

/-- C10: `get_tile_number(None)` returns the distinguished no-match value
without raising; `sort_sol` succeeds on every well-formed code over the
color alphabet; and whenever the canonical form of a well-formed code is
absent from `tiles_complete`, `get_tile_number` signals the distinguished
`ValueError` of `list.index` (`unknownTileCode`), which is distinct from the
no-match outcome and from every tile index. -/
theorem get_tile_number_outcomes :
    get_tile_number none = TileLookup.noMatch ∧
    (∀ v ∈ codes6, full_code_wf v → (sort_sol v).isSome) ∧
    ∀ v std, full_code_wf v → sort_sol v = some std → std ∉ tiles_complete →
      get_tile_number (some v) = TileLookup.unknownTileCode ∧
        TileLookup.unknownTileCode ≠ TileLookup.noMatch ∧
        ∀ n, get_tile_number (some v) ≠ TileLookup.tileNumber n := by
  refine ⟨rfl, ?_, ?_⟩
  · intro v hv hwf
    exact sort_sol_total_of_no_single v hv (wf_no_single_count v hwf)
  · intro v std _ hsort hnot
    have hidx := index_of_code_eq_none tiles_complete std hnot
    have hget : get_tile_number (some v) = TileLookup.unknownTileCode := by
      simp only [get_tile_number, hsort, hidx]
    refine ⟨hget, by simp, ?_⟩
    intro n
    rw [hget]
    simp

/-- C10 witness: the well-formed code `123123` canonicalizes to itself,
which is absent from the catalog, and `get_tile_number` reports
`unknownTileCode` on it. -/
theorem get_tile_number_outcomes_witness :
    get_tile_number (some (String.toList "123123")) = TileLookup.unknownTileCode :=
  (get_tile_number_outcomes.2.2 (String.toList "123123") (String.toList "123123")
    (by decide) (by decide) (by decide)).1

/-- The seed is a lower bound of a `max`-fold. -/
lemma le_foldl_max (l : List Nat) (a : Nat) : a ≤ l.foldl max a := by
  induction l generalizing a with
  | nil => exact Nat.le_refl a
  | cons x xs ih => exact Nat.le_trans (Nat.le_max_left a x) (ih (max a x))

/-- Every member of a list is bounded by its `max`-fold. -/
lemma mem_le_foldl_max {y : Nat} {l : List Nat} (h : y ∈ l) (a : Nat) :
    y ≤ l.foldl max a := by
  induction l generalizing a with
  | nil => cases h
  | cons x xs ih =>
    rcases List.mem_cons.mp h with rfl | hy
    · exact Nat.le_trans (Nat.le_max_right a y) (le_foldl_max xs (max a y))
    · exact ih hy (max a x)

/-- `counter_max` bounds every multiplicity of the variant. -/
lemma counter_max_bound {v : List Nat} {m : Nat} (h : counter_max v = some m) :
    ∀ x, v.count x ≤ m := by
  intro x
  cases v with
  | nil => cases h
  | cons y ys =>
    have hX : ((y :: ys).map (fun z => (y :: ys).count z)).foldl max 0 = m :=
      Option.some.inj h
    by_cases hx : x ∈ y :: ys
    · have hmem : (y :: ys).count x ∈ (y :: ys).map (fun z => (y :: ys).count z) :=
        List.mem_map.mpr ⟨x, hx, rfl⟩
      have hle := mem_le_foldl_max hmem 0
      omega
    · rw [List.count_eq_zero_of_not_mem hx]
      exact Nat.zero_le m

/-- `counter_max` succeeds exactly on nonempty variants. -/
lemma counter_max_isSome {v : List Nat} (h : v ≠ []) : (counter_max v).isSome := by
  cases v with
  | nil => exact absurd rfl h
  | cons y ys => simp [counter_max]

/-- Every selected variant comes from the input list and has all
multiplicities below 3. -/
lemma select_variants_mem {l sel : List (List Nat)}
    (h : select_variants l = some sel) :
    ∀ v ∈ sel, v ∈ l ∧ ∃ m, counter_max v = some m ∧ m < 3 := by
  induction l generalizing sel with
  | nil =>
    cases h
    intro v hv
    cases hv
  | cons w ws ih =>
    rcases hcm : counter_max w with _ | m
    · rw [select_variants, hcm] at h
      cases h
    · rcases hsel : select_variants ws with _ | rest
      · rw [select_variants, hcm, hsel] at h
        cases h
      · rw [select_variants, hcm, hsel] at h
        have h2 : some (if m < 3 then w :: rest else rest) = some sel := h
        injection h2 with h3
        subst h3
        intro v hv
        by_cases hm : m < 3
        · rw [if_pos hm] at hv
          rcases List.mem_cons.mp hv with rfl | hv2
          · exact ⟨List.mem_cons_self _ _, m, hcm, hm⟩
          · rcases ih hsel v hv2 with ⟨h1', h2'⟩
            exact ⟨List.mem_cons_of_mem _ h1', h2'⟩
        · rw [if_neg hm] at hv
          rcases ih hsel v hv with ⟨h1', h2'⟩
          exact ⟨List.mem_cons_of_mem _ h1', h2'⟩

/-- `select_variants` succeeds when every variant is nonempty. -/
lemma select_variants_isSome {l : List (List Nat)} (h : ∀ v ∈ l, v ≠ []) :
    (select_variants l).isSome := by
  induction l with
  | nil => simp [select_variants]
  | cons w ws ih =>
    have hw := counter_max_isSome (h w (List.mem_cons_self _ _))
    rcases hcm : counter_max w with _ | m
    · rw [hcm] at hw
      cases hw
    · have hws := ih (fun v hv => h v (List.mem_cons_of_mem _ hv))
      rcases hsel : select_variants ws with _ | rest
      · rw [hsel] at hws
        cases hws
      · rw [select_variants, hcm, hsel]
        by_cases hm : m < 3 <;> simp [hm]

/-- The adjacent-duplicate collapse only keeps elements of its input. -/
lemma compress_aux_subset : ∀ (xs : List Nat) (last : Nat), compress_aux last xs ⊆ xs := by
  intro xs
  induction xs with
  | nil => intro last; simp [compress_aux]
  | cons x rest ih =>
    intro last
    by_cases hx : x = last
    · rw [compress_aux, if_pos hx]
      exact List.Subset.trans (ih last) (List.subset_cons_self x rest)
    · rw [compress_aux, if_neg hx]
      intro y hy
      rcases List.mem_cons.mp hy with rfl | hy2
      · exact List.mem_cons_self _ _
      · exact List.mem_cons_of_mem _ (ih x hy2)

/-- `compress` only keeps elements of its input. -/
lemma compress_subset {seq c : List Nat} (h : compress seq = some c) : c ⊆ seq := by
  cases seq with
  | nil => cases h
  | cons s0 rest =>
    have hsub : s0 :: compress_aux s0 rest ⊆ s0 :: rest := by
      intro y hy
      rcases List.mem_cons.mp hy with rfl | hy2
      · exact List.mem_cons_self _ _
      · exact List.mem_cons_of_mem _ (compress_aux_subset rest s0 hy2)
    rw [compress] at h
    by_cases hlast : (s0 :: compress_aux s0 rest).getLastD 0 = s0
    · rw [if_pos hlast] at h
      cases h
      exact List.Subset.trans (List.dropLast_sublist _).subset hsub
    · rw [if_neg hlast] at h
      cases h
      exact hsub

/-- The collapse result is empty exactly when every element equals the
running last element. -/
lemma compress_aux_eq_nil_iff : ∀ (xs : List Nat) (last : Nat),
    compress_aux last xs = [] ↔ ∀ x ∈ xs, x = last := by
  intro xs
  induction xs with
  | nil => intro last; simp [compress_aux]
  | cons x rest ih =>
    intro last
    by_cases hx : x = last
    · subst hx
      rw [compress_aux, if_pos rfl]
      simp only [List.mem_cons]
      constructor
      · intro h y hy
        rcases hy with rfl | hy2
        · rfl
        · exact (ih x).mp h y hy2
      · intro h
        exact (ih x).mpr (fun y hy => h y (Or.inr hy))
    · rw [compress_aux, if_neg hx]
      simp only [List.mem_cons]
      constructor
      · intro h
        cases h
      · intro h
        exact absurd (h x (Or.inl rfl)) hx

/-- `compress` succeeds on every nonempty sequence. -/
lemma compress_isSome {seq : List Nat} (h : seq ≠ []) : (compress seq).isSome := by
  cases seq with
  | nil => exact absurd rfl h
  | cons s0 rest => simp [compress]

/-- A sequence containing two distinct values compresses to a nonempty
variant. -/
lemma compress_ne_nil {seq c : List Nat} {a b : Nat} (ha : a ∈ seq) (hb : b ∈ seq)
    (hab : a ≠ b) (h : compress seq = some c) : c ≠ [] := by
  cases seq with
  | nil => cases ha
  | cons s0 rest =>
    have hex : ∃ x ∈ rest, x ≠ s0 := by
      by_cases has : a = s0
      · subst has
        rcases List.mem_cons.mp hb with rfl | hb2
        · exact absurd rfl hab
        · exact ⟨b, hb2, fun hbs => hab hbs.symm⟩
      · rcases List.mem_cons.mp ha with rfl | ha2
        · exact absurd rfl has
        · exact ⟨a, ha2, has⟩
    have haux : compress_aux s0 rest ≠ [] := by
      intro hnil
      rcases hex with ⟨x, hx, hxs0⟩
      exact hxs0 ((compress_aux_eq_nil_iff rest s0).mp hnil x hx)
    have hlen : 2 ≤ (s0 :: compress_aux s0 rest).length := by
      cases haux2 : compress_aux s0 rest with
      | nil => exact absurd haux2 haux
      | cons y ys => simp
    rw [compress] at h
    by_cases hlast : (s0 :: compress_aux s0 rest).getLastD 0 = s0
    · rw [if_pos hlast] at h
      cases h
      intro hnil
      have h1 : ((s0 :: compress_aux s0 rest).dropLast).length = 0 := by
        rw [hnil]
        rfl
      rw [List.length_dropLast] at h1
      omega
    · rw [if_neg hlast] at h
      cases h
      intro hnil
      cases hnil

/-- `compress_all` succeeds when every branch is nonempty. -/
lemma compress_all_isSome {l : List (List Nat)} (h : ∀ v ∈ l, v ≠ []) :
    (compress_all l).isSome := by
  induction l with
  | nil => simp [compress_all]
  | cons v vs ih =>
    have hv := compress_isSome (h v (List.mem_cons_self _ _))
    rcases hc : compress v with _ | c
    · rw [hc] at hv
      cases hv
    · have hvs := ih (fun w hw => h w (List.mem_cons_of_mem _ hw))
      rcases hcs : compress_all vs with _ | cs
      · rw [hcs] at hvs
        cases hvs
      · rw [compress_all, hc, hcs]
        simp

/-- Every output of `compress_all` is the compression of some input branch. -/
lemma compress_all_mem {l cs : List (List Nat)} (h : compress_all l = some cs) :
    ∀ c ∈ cs, ∃ v ∈ l, compress v = some c := by
  induction l generalizing cs with
  | nil =>
    cases h
    intro c hc
    cases hc
  | cons v vs ih =>
    intro c hc
    rcases hcv : compress v with _ | cv
    · rw [compress_all, hcv] at h
      cases h
    · rcases hcvs : compress_all vs with _ | cvs
      · rw [compress_all, hcv, hcvs] at h
        cases h
      · rw [compress_all, hcv, hcvs] at h
        cases h
        rcases List.mem_cons.mp hc with rfl | hc2
        · exact ⟨v, List.mem_cons_self _ _, hcv⟩
        · rcases ih hcvs c hc2 with ⟨w, hw, hcw⟩
          exact ⟨w, List.mem_cons_of_mem _ hw, hcw⟩

/-- `expand_step` preserves an elementwise property of all branches, given
that the new entry's colors satisfy it. -/
lemma expand_step_all {P : Nat → Prop} {acc : List (List Nat)} {e : Entry}
    (hacc : ∀ b ∈ acc, ∀ x ∈ b, P x) (he : ∀ x ∈ entry_colors e, P x) :
    ∀ b ∈ expand_step acc e, ∀ x ∈ b, P x := by
  cases e with
  | num n =>
    intro b hb x hx
    rcases List.mem_map.mp hb with ⟨b0, hb0, rfl⟩
    rcases List.mem_append.mp hx with hx1 | hx2
    · exact hacc b0 hb0 x hx1
    · have : x = n := by simpa using hx2
      subst this
      exact he x (by simp [entry_colors])
  | pair a b =>
    intro br hbr x hx
    have ha : P a := he a (by simp [entry_colors])
    have hb : P b := he b (by simp [entry_colors])
    rcases List.mem_append.mp hbr with h1 | h2
    · rcases List.mem_map.mp h1 with ⟨b0, hb0, rfl⟩
      rcases List.mem_append.mp hx with hx1 | hx2
      · exact hacc b0 hb0 x hx1
      · rcases (by simpa using hx2 : x = a ∨ x = b) with rfl | rfl
        · exact ha
        · exact hb
    · rcases List.mem_flatMap.mp h2 with ⟨b0, hb0, hmem⟩
      have hcases : br = b0 ++ [b, a] ∨ br = b0 ++ [a] ∨ br = b0 ++ [b] := by
        simpa using hmem
      rcases hcases with rfl | rfl | rfl
      · rcases List.mem_append.mp hx with hx1 | hx2
        · exact hacc b0 hb0 x hx1
        · rcases (by simpa using hx2 : x = b ∨ x = a) with rfl | rfl
          · exact hb
          · exact ha
      · rcases List.mem_append.mp hx with hx1 | hx2
        · exact hacc b0 hb0 x hx1
        · have hxa : x = a := by simpa using hx2
          subst hxa
          exact ha
      · rcases List.mem_append.mp hx with hx1 | hx2
        · exact hacc b0 hb0 x hx1
        · have hxb : x = b := by simpa using hx2
          subst hxb
          exact hb

/-- The branch expansion fold preserves an elementwise property. -/
lemma foldl_expand_all {P : Nat → Prop} :
    ∀ (l : List Entry) (acc : List (List Nat)),
      (∀ b ∈ acc, ∀ x ∈ b, P x) → (∀ e ∈ l, ∀ x ∈ entry_colors e, P x) →
        ∀ b ∈ l.foldl expand_step acc, ∀ x ∈ b, P x := by
  intro l
  induction l with
  | nil => intro acc hacc _; exact hacc
  | cons e es ih =>
    intro acc hacc hl
    have h1 := expand_step_all hacc (hl e (List.mem_cons_self _ _))
    exact ih (expand_step acc e) h1 (fun e2 he2 => hl e2 (List.mem_cons_of_mem _ he2))

/-- `expand_step` keeps a value that is already present in every branch. -/
lemma expand_step_keeps_mem {a : Nat} {acc : List (List Nat)} {e : Entry}
    (h : ∀ b ∈ acc, a ∈ b) : ∀ b ∈ expand_step acc e, a ∈ b := by
  cases e with
  | num n =>
    intro b hb
    rcases List.mem_map.mp hb with ⟨b0, hb0, rfl⟩
    exact List.mem_append_left _ (h b0 hb0)
  | pair x y =>
    intro br hbr
    rcases List.mem_append.mp hbr with h1 | h2
    · rcases List.mem_map.mp h1 with ⟨b0, hb0, rfl⟩
      exact List.mem_append_left _ (h b0 hb0)
    · rcases List.mem_flatMap.mp h2 with ⟨b0, hb0, hmem⟩
      have hcases : br = b0 ++ [y, x] ∨ br = b0 ++ [x] ∨ br = b0 ++ [y] := by
        simpa using hmem
      rcases hcases with rfl | rfl | rfl <;> exact List.mem_append_left _ (h b0 hb0)

/-- After appending a plain number, every branch contains it. -/
lemma expand_step_num_mem {a : Nat} {acc : List (List Nat)} :
    ∀ b ∈ expand_step acc (Entry.num a), a ∈ b := by
  intro b hb
  rcases List.mem_map.mp hb with ⟨b0, _, rfl⟩
  exact List.mem_append_right _ (by simp)

/-- The expansion fold keeps a value present in every accumulator branch. -/
lemma foldl_keeps_mem {a : Nat} :
    ∀ (l : List Entry) (acc : List (List Nat)), (∀ b ∈ acc, a ∈ b) →
      ∀ b ∈ l.foldl expand_step acc, a ∈ b := by
  intro l
  induction l with
  | nil => intro acc hacc; exact hacc
  | cons e es ih => intro acc hacc; exact ih _ (expand_step_keeps_mem hacc)

/-- A plain-number entry's color ends up in every expanded branch. -/
lemma num_mem_branches {a : Nat} :
    ∀ (l : List Entry) (acc : List (List Nat)), Entry.num a ∈ l →
      ∀ b ∈ l.foldl expand_step acc, a ∈ b := by
  intro l
  induction l with
  | nil => intro acc h; cases h
  | cons e es ih =>
    intro acc h
    rcases List.mem_cons.mp h with rfl | h2
    · exact foldl_keeps_mem es _ expand_step_num_mem
    · exact ih _ h2

/-- `digit_char` is injective on the color alphabet. -/
lemma digit_char_inj_on_colors :
    ∀ x ∈ ([1, 2, 3, 4] : List Nat), ∀ y ∈ ([1, 2, 3, 4] : List Nat),
      digit_char x = digit_char y → x = y := by decide

/-- Destructuring a successful run of `preprocess_input`. -/
lemma preprocess_input_eq_some {raw : List Entry} {vs : List (List Char)}
    (h : preprocess_input raw = some vs) :
    ∃ compressed selected,
      compress_all ((raw.filter (fun e => e ≠ Entry.num 0)).foldl expand_step [[]])
          = some compressed ∧
        select_variants ((compressed.dedup).filter (fun v => v.length < 7))
            = some selected ∧
          vs = selected.map (fun v => v.map digit_char) := by
  rw [preprocess_input] at h
  rcases hcomp : compress_all ((raw.filter (fun e => e ≠ Entry.num 0)).foldl expand_step [[]])
    with _ | compressed
  · rw [hcomp] at h
    simp at h
  · rw [hcomp] at h
    simp only at h
    rcases hsel : select_variants ((compressed.dedup).filter (fun v => v.length < 7))
      with _ | selected
    · rw [hsel] at h
      simp at h
    · rw [hsel] at h
      simp only at h
      injection h with h2
      exact ⟨compressed, selected, rfl, hsel, h2.symm⟩

/-- A successful run of `preprocess_input` on inputs with two distinct
nonzero plain colors. -/
lemma preprocess_input_isSome_of_two_colors {raw : List Entry} {a b : Nat}
    (ha0 : a ≠ 0) (hb0 : b ≠ 0) (hab : a ≠ b)
    (hma : Entry.num a ∈ raw) (hmb : Entry.num b ∈ raw) :
    (preprocess_input raw).isSome := by
  have hca : Entry.num a ∈ raw.filter (fun e => e ≠ Entry.num 0) := by
    rw [List.mem_filter]
    refine ⟨hma, ?_⟩
    simp [ha0]
  have hcb : Entry.num b ∈ raw.filter (fun e => e ≠ Entry.num 0) := by
    rw [List.mem_filter]
    refine ⟨hmb, ?_⟩
    simp [hb0]
  have hA : ∀ br ∈ (raw.filter (fun e => e ≠ Entry.num 0)).foldl expand_step [[]],
      a ∈ br := num_mem_branches _ _ hca
  have hB : ∀ br ∈ (raw.filter (fun e => e ≠ Entry.num 0)).foldl expand_step [[]],
      b ∈ br := num_mem_branches _ _ hcb
  have hne : ∀ br ∈ (raw.filter (fun e => e ≠ Entry.num 0)).foldl expand_step [[]],
      br ≠ [] := fun br hbr => List.ne_nil_of_mem (hA br hbr)
  have hcs := compress_all_isSome hne
  rcases hcomp : compress_all ((raw.filter (fun e => e ≠ Entry.num 0)).foldl expand_step [[]])
    with _ | compressed
  · rw [hcomp] at hcs
    cases hcs
  · have hvars : ∀ v ∈ (compressed.dedup).filter (fun v => v.length < 7), v ≠ [] := by
      intro v hv
      have hv2 : v ∈ compressed := List.dedup_subset _ (List.mem_of_mem_filter hv)
      rcases compress_all_mem hcomp v hv2 with ⟨w, hw, hcw⟩
      exact compress_ne_nil (hA w hw) (hB w hw) hab hcw
    have hsome := select_variants_isSome hvars
    rcases hs : select_variants ((compressed.dedup).filter (fun v => v.length < 7))
      with _ | selected
    · rw [hs] at hsome
      cases hsome
    · rw [preprocess_input, hcomp]
      simp only
      rw [hs]
      simp only [Option.isSome_some]

/-- C4 counterexample: `preprocess_input` is not total on contract-conforming
observations.  On the all-zero observation the Python code evaluates
`seq[0]` of an empty branch (`IndexError`); on an observation of one
repeated color every branch compresses to the empty tuple and
`max(Counter(()).values())` raises a `ValueError`.  Both are modelled by
`none`. -/
theorem preprocess_input_not_total :
    (∀ e ∈ List.replicate 8 (Entry.num 0), entry_ok e) ∧
    (∀ e ∈ List.replicate 8 (Entry.num 3), entry_ok e) ∧
    preprocess_input (List.replicate 8 (Entry.num 0)) = none ∧
    preprocess_input (List.replicate 8 (Entry.num 3)) = none := by decide

/-- C4 amended: `preprocess_input` returns a (possibly empty) candidate set
for every length-8 contract-conforming raw observation that contains two
plain entries with distinct nonzero colors; it can fail on observations
whose entries are all zero or all of one repeated color. -/
theorem preprocess_input_total_amended :
    ∀ raw : List Entry, raw.length = 8 → (∀ e ∈ raw, entry_ok e) →
      ∀ a b : Nat, a ≠ 0 → b ≠ 0 → a ≠ b →
        Entry.num a ∈ raw → Entry.num b ∈ raw →
          (preprocess_input raw).isSome := by
  intro raw _ _ a b ha0 hb0 hab hma hmb
  exact preprocess_input_isSome_of_two_colors ha0 hb0 hab hma hmb

/-- C4 amended witness: the scenario observation contains distinct plain
colors 3 and 1, so its preprocessing succeeds. -/
theorem preprocess_input_total_amended_witness :
    (preprocess_input raw_obs).isSome :=
  preprocess_input_total_amended raw_obs (by decide) (by decide) 3 1
    (by decide) (by decide) (by decide) (by decide) (by decide)

/-- C7 counterexample: `compress([3,3,4,4,3])` does not return `[3,4,3]`;
the adjacent collapse yields `[3,4,3]`, but its last element equals its
first, so the circular collapse removes it. -/
theorem compress_wrap_claim_false :
    compress [3, 3, 4, 4, 3] ≠ some [3, 4, 3] := by decide

/-- C7 amended: `compress([3,3,4,4,3])` returns `[3,4]`: consecutive equal
colors are merged into `[3,4,3]`, and because the resulting last element
equals the first, the wrap-around removal drops the final `3`. -/
theorem compress_wrap_example : compress [3, 3, 4, 4, 3] = some [3, 4] := by decide

/-- C6 counterexample: the contract-conforming observation
`[1, 2, 1, 2, 3, 4, 0, 0]` yields the candidate `121234` of length 6, so
candidates are not bounded by length 5 (the code keeps every variant of
length `< 7`). -/
theorem preprocess_candidate_length_six :
    (∀ e ∈ ([Entry.num 1, Entry.num 2, Entry.num 1, Entry.num 2, Entry.num 3,
        Entry.num 4, Entry.num 0, Entry.num 0] : List Entry), entry_ok e) ∧
    preprocess_input [Entry.num 1, Entry.num 2, Entry.num 1, Entry.num 2,
        Entry.num 3, Entry.num 4, Entry.num 0, Entry.num 0]
      = some [String.toList "121234"] ∧
    (String.toList "121234").length = 6 := by decide

/-- C6 amended: every candidate returned by `preprocess_input` on a
contract-conforming observation has length at most 6 (branches of length 7
or more are discarded) and no color code occurring 3 or more times. -/
theorem preprocess_candidates_amended :
    ∀ (raw : List Entry) (vs : List (List Char)) (v : List Char),
      (∀ e ∈ raw, entry_ok e) → preprocess_input raw = some vs → v ∈ vs →
        v.length ≤ 6 ∧ ∀ ch : Char, v.count ch ≤ 2 := by
  intro raw vs v hok hpre hv
  rcases preprocess_input_eq_some hpre with ⟨compressed, selected, hcomp, hsel, rfl⟩
  rcases List.mem_map.mp hv with ⟨w, hw, rfl⟩
  rcases select_variants_mem hsel w hw with ⟨hwf, m, hcm, hm3⟩
  have hlen : w.length < 7 := by
    have hf := List.mem_filter.mp hwf
    simpa using hf.2
  refine ⟨by rw [List.length_map]; omega, ?_⟩
  have hcount : ∀ x, w.count x ≤ 2 := by
    intro x
    have := counter_max_bound hcm x
    omega
  have hw_comp : w ∈ compressed := List.dedup_subset _ (List.mem_of_mem_filter hwf)
  rcases compress_all_mem hcomp w hw_comp with ⟨br, hbr, hcw⟩
  have hbr_colors : ∀ x ∈ br, x ∈ ([1, 2, 3, 4] : List Nat) := by
    refine foldl_expand_all _ _ ?_ ?_ br hbr
    · intro b0 hb0 x hx
      have hb0e : b0 = [] := by simpa using hb0
      subst hb0e
      cases hx
    · intro e he x hx
      have he2 := List.mem_filter.mp he
      have hok_e := hok e he2.1
      have hne : e ≠ Entry.num 0 := by simpa using he2.2
      cases e with
      | num n =>
        have hx_n : x = n := by simpa [entry_colors] using hx
        subst hx_n
        rcases hok_e with h0 | hcol
        · exact absurd (by rw [h0]) hne
        · exact hcol
      | pair a b =>
        rcases (by simpa [entry_colors] using hx : x = a ∨ x = b) with rfl | rfl
        · exact hok_e.1
        · exact hok_e.2.1
  have hw_colors : ∀ x ∈ w, x ∈ ([1, 2, 3, 4] : List Nat) :=
    fun x hx => hbr_colors x (compress_subset hcw hx)
  intro ch
  by_cases hch : ∃ x ∈ w, digit_char x = ch
  · rcases hch with ⟨x, hxw, hxch⟩
    have hx_col := hw_colors x hxw
    have h1 : (w.map digit_char).count ch = w.countP (fun y => digit_char y == ch) := by
      rw [List.count_eq_countP, List.countP_map]
      rfl
    have h2 : w.countP (fun y => digit_char y == ch) ≤ w.countP (fun y => y == x) := by
      apply List.countP_mono_left
      intro y hy hyc
      have hy_col := hw_colors y hy
      have hdig : digit_char y = ch := by simpa using hyc
      have hyx : y = x :=
        digit_char_inj_on_colors y hy_col x hx_col (by rw [hdig, hxch])
      simp [hyx]
    have h3 : w.countP (fun y => y == x) = w.count x := (List.count_eq_countP _ _).symm
    have h4 := hcount x
    omega
  · push_neg at hch
    have hnm : ch ∉ w.map digit_char := by
      intro hmem
      rcases List.mem_map.mp hmem with ⟨x, hx, hxe⟩
      exact hch x hx hxe
    rw [List.count_eq_zero_of_not_mem hnm]
    exact Nat.zero_le 2

/-- C6 amended witness: on the scenario observation, the returned candidate
`343141` has length at most 6 and every character count at most 2. -/
theorem preprocess_candidates_amended_witness :
    (String.toList "343141").length ≤ 6 ∧
      ∀ ch : Char, (String.toList "343141").count ch ≤ 2 :=
  preprocess_candidates_amended raw_obs c1_variants (String.toList "343141")
    (by decide) (by decide) (by decide)

/-- C1 counterexample: on the scenario observation
`[3, [4,3], 3, 1, 0, [4,1], 1, [4,3]]` the candidate set does not contain
`31314`, and `check_variants` with the `clh` template `abacbc` does not
return `313414`. -/
theorem scenario_claim_false :
    String.toList "31314" ∉ c1_variants ∧
    check_variants c1_variants (some (String.toList "abacbc"))
      ≠ some (String.toList "313414") := by decide

/-- C1 amended: the scenario's candidate set contains `343141` (a rotation
of catalog entry `141343`), which binds against the `clh` template
`abacbc`; `check_variants` returns `343141`, whose canonical form is
`141343`, and `get_tile_number` returns its catalog index 36. -/
theorem scenario_end_to_end :
    preprocess_input raw_obs = some c1_variants ∧
    String.toList "343141" ∈ c1_variants ∧
    check_variants c1_variants (some (String.toList "abacbc"))
      = some (String.toList "343141") ∧
    sort_sol (String.toList "343141") = some (String.toList "141343") ∧
    index_of_code tiles_complete (String.toList "141343") = some 36 ∧
    get_tile_number (check_variants c1_variants (some (String.toList "abacbc")))
      = TileLookup.tileNumber 36 := by decide

/-- A successful lookup corresponds to a stored entry. -/
lemma lookup_map_mem : ∀ (m : List (Char × Char)) (k v : Char),
    lookup_map m k = some v → (k, v) ∈ m := by
  intro m
  induction m with
  | nil => intro k v h; cases h
  | cons e rest ih =>
    intro k v h
    rcases e with ⟨k0, v0⟩
    rw [lookup_map] at h
    by_cases hk : k = k0
    · rw [if_pos hk] at h
      injection h with h2
      subst hk
      subst h2
      exact List.mem_cons_self _ _
    · rw [if_neg hk] at h
      exact List.mem_cons_of_mem _ (ih k v h)

/-- A stored entry makes its key's lookup succeed. -/
lemma lookup_map_isSome_of_mem : ∀ (m : List (Char × Char)) (k v : Char),
    (k, v) ∈ m → (lookup_map m k).isSome := by
  intro m
  induction m with
  | nil => intro k v h; cases h
  | cons e rest ih =>
    intro k v h
    rcases e with ⟨k0, v0⟩
    rw [lookup_map]
    by_cases hk : k = k0
    · rw [if_pos hk]
      rfl
    · rw [if_neg hk]
      rcases List.mem_cons.mp h with heq | hmem
      · exact absurd (congrArg Prod.fst heq) hk
      · exact ih k v hmem

/-- `value_used` detects exactly the stored colors. -/
lemma value_used_iff : ∀ (m : List (Char × Char)) (c : Char),
    value_used m c = true ↔ ∃ e ∈ m, e.2 = c := by
  intro m
  induction m with
  | nil => intro c; simp [value_used]
  | cons e rest ih =>
    intro c
    rcases e with ⟨k0, v0⟩
    rw [value_used]
    by_cases hc : c = v0
    · subst hc
      rw [if_pos rfl]
      constructor
      · intro _
        exact ⟨(k0, c), List.mem_cons_self _ _, rfl⟩
      · intro _
        rfl
    · rw [if_neg hc]
      rw [ih c]
      constructor
      · rintro ⟨e, he, he2⟩
        exact ⟨e, List.mem_cons_of_mem _ he, he2⟩
      · rintro ⟨e, he, he2⟩
        rcases List.mem_cons.mp he with rfl | hmem
        · exact absurd he2.symm hc
        · exact ⟨e, hmem, he2⟩

/-- The empty mapping is coherent. -/
lemma map_ok_nil : map_ok [] := by
  intro k1 v1 k2 v2 h1 _
  cases h1

/-- Adding a fresh letter with a fresh color keeps a mapping coherent. -/
lemma map_ok_extend {m : List (Char × Char)} {p c : Char} (hok : map_ok m)
    (hp : lookup_map m p = none) (hc : value_used m c = false) :
    map_ok ((p, c) :: m) := by
  intro k1 v1 k2 v2 h1 h2
  rcases List.mem_cons.mp h1 with heq1 | h1'
  · injection heq1 with hk1 hv1
    subst hk1
    subst hv1
    rcases List.mem_cons.mp h2 with heq2 | h2'
    · injection heq2 with hk2 hv2
      subst hk2
      subst hv2
      simp
    · constructor
      · intro hpe
        exfalso
        have hs := lookup_map_isSome_of_mem m k2 v2 h2'
        rw [← hpe, hp] at hs
        cases hs
      · intro hce
        exfalso
        have : value_used m v1 = true :=
          (value_used_iff m v1).mpr ⟨(k2, v2), h2', hce.symm⟩
        rw [hc] at this
        cases this
  · rcases List.mem_cons.mp h2 with heq2 | h2'
    · injection heq2 with hk2 hv2
      subst hk2
      subst hv2
      constructor
      · intro hpe
        exfalso
        have hs := lookup_map_isSome_of_mem m k1 v1 h1'
        rw [hpe, hp] at hs
        cases hs
      · intro hce
        exfalso
        have hu : value_used m v2 = true :=
          (value_used_iff m v2).mpr ⟨(k1, v1), h1', hce⟩
        rw [hc] at hu
        cases hu
    · exact hok k1 v1 k2 v2 h1' h2'

/-- `build_mapping` on a letter already bound to the matching color. -/
lemma build_mapping_cons_seen {p c : Char} {rest m : List (Char × Char)}
    (hl : lookup_map m p = some c) :
    build_mapping ((p, c) :: rest) m = build_mapping rest m := by
  rw [build_mapping, hl]
  show (if c = c then build_mapping rest m else none) = build_mapping rest m
  rw [if_pos rfl]

/-- `build_mapping` on a letter bound to a different color: contradiction. -/
lemma build_mapping_cons_clash {p c v0 : Char} {rest m : List (Char × Char)}
    (hl : lookup_map m p = some v0) (hne : v0 ≠ c) :
    build_mapping ((p, c) :: rest) m = none := by
  rw [build_mapping, hl]
  show (if v0 = c then build_mapping rest m else none) = none
  rw [if_neg hne]

/-- `build_mapping` on a fresh letter with an already used color: failure. -/
lemma build_mapping_cons_used {p c : Char} {rest m : List (Char × Char)}
    (hl : lookup_map m p = none) (hu : value_used m c = true) :
    build_mapping ((p, c) :: rest) m = none := by
  rw [build_mapping, hl]
  show (if value_used m c = true then none else build_mapping rest ((p, c) :: m)) = none
  rw [hu]
  simp

/-- `build_mapping` on a fresh letter with a fresh color: extend the map. -/
lemma build_mapping_cons_fresh {p c : Char} {rest m : List (Char × Char)}
    (hl : lookup_map m p = none) (hu : value_used m c = false) :
    build_mapping ((p, c) :: rest) m = build_mapping rest ((p, c) :: m) := by
  rw [build_mapping, hl]
  show (if value_used m c = true then none else build_mapping rest ((p, c) :: m))
    = build_mapping rest ((p, c) :: m)
  rw [hu]
  simp

/-- `build_mapping` never forgets an existing binding. -/
lemma build_mapping_keeps_lookup :
    ∀ (pairs m m' : List (Char × Char)), build_mapping pairs m = some m' →
      ∀ k v, lookup_map m k = some v → lookup_map m' k = some v := by
  intro pairs
  induction pairs with
  | nil =>
    intro m m' h k v hk
    injection h with h2
    subst h2
    exact hk
  | cons pr rest ih =>
    intro m m' h k v hk
    rcases pr with ⟨p, c⟩
    rcases hl : lookup_map m p with _ | v0
    · rcases hu : value_used m c with _ | _
      · rw [build_mapping_cons_fresh hl hu] at h
        refine ih _ _ h k v ?_
        rw [lookup_map]
        by_cases hkp : k = p
        · subst hkp
          rw [hl] at hk
          cases hk
        · rw [if_neg hkp]
          exact hk
      · rw [build_mapping_cons_used hl hu] at h
        cases h
    · by_cases hvc : v0 = c
      · subst hvc
        rw [build_mapping_cons_seen hl] at h
        exact ih _ _ h k v hk
      · rw [build_mapping_cons_clash hl hvc] at h
        cases h

/-- On success, every processed pair is bound in the final mapping. -/
lemma build_mapping_lookup_pairs :
    ∀ (pairs m m' : List (Char × Char)), build_mapping pairs m = some m' →
      ∀ pr ∈ pairs, lookup_map m' pr.1 = some pr.2 := by
  intro pairs
  induction pairs with
  | nil =>
    intro m m' _ pr hpr
    cases hpr
  | cons pr0 rest ih =>
    intro m m' h pr hpr
    rcases pr0 with ⟨p, c⟩
    rcases hl : lookup_map m p with _ | v0
    · rcases hu : value_used m c with _ | _
      · rw [build_mapping_cons_fresh hl hu] at h
        rcases List.mem_cons.mp hpr with rfl | hpr2
        · refine build_mapping_keeps_lookup _ _ _ h p c ?_
          rw [lookup_map, if_pos rfl]
        · exact ih _ _ h pr hpr2
      · rw [build_mapping_cons_used hl hu] at h
        cases h
    · by_cases hvc : v0 = c
      · subst hvc
        rw [build_mapping_cons_seen hl] at h
        rcases List.mem_cons.mp hpr with rfl | hpr2
        · exact build_mapping_keeps_lookup _ _ _ h p v0 hl
        · exact ih _ _ h pr hpr2
      · rw [build_mapping_cons_clash hl hvc] at h
        cases h

/-- On success, `build_mapping` preserves mapping coherence. -/
lemma build_mapping_map_ok :
    ∀ (pairs m m' : List (Char × Char)), build_mapping pairs m = some m' →
      map_ok m → map_ok m' := by
  intro pairs
  induction pairs with
  | nil =>
    intro m m' h hok
    injection h with h2
    subst h2
    exact hok
  | cons pr0 rest ih =>
    intro m m' h hok
    rcases pr0 with ⟨p, c⟩
    rcases hl : lookup_map m p with _ | v0
    · rcases hu : value_used m c with _ | _
      · rw [build_mapping_cons_fresh hl hu] at h
        exact ih _ _ h (map_ok_extend hok hl hu)
      · rw [build_mapping_cons_used hl hu] at h
        cases h
    · by_cases hvc : v0 = c
      · subst hvc
        rw [build_mapping_cons_seen hl] at h
        exact ih _ _ h hok
      · rw [build_mapping_cons_clash hl hvc] at h
        cases h

/-- `build_mapping` succeeds on a pairwise-coherent pair list that is also
coherent with the accumulated mapping. -/
lemma build_mapping_isSome :
    ∀ (pairs m : List (Char × Char)), map_ok m →
      (∀ k v, (k, v) ∈ pairs → ∀ k' v', (k', v') ∈ m → (k = k' ↔ v = v')) →
      (∀ k v, (k, v) ∈ pairs → ∀ k' v', (k', v') ∈ pairs → (k = k' ↔ v = v')) →
      (build_mapping pairs m).isSome := by
  intro pairs
  induction pairs with
  | nil =>
    intro m _ _ _
    rfl
  | cons pr0 rest ih =>
    intro m hok hcompat hpw
    rcases pr0 with ⟨p, c⟩
    rcases hl : lookup_map m p with _ | v0
    · have hu : value_used m c = false := by
        rcases hu2 : value_used m c with _ | _
        · rfl
        · exfalso
          rcases (value_used_iff m c).mp hu2 with ⟨e, he, he2⟩
          rcases e with ⟨ek, ev⟩
          have hpe : p = ek :=
            (hcompat p c (List.mem_cons_self _ _) ek ev he).mpr he2.symm
          have hs := lookup_map_isSome_of_mem m ek ev he
          rw [← hpe, hl] at hs
          cases hs
      rw [build_mapping_cons_fresh hl hu]
      refine ih ((p, c) :: m) (map_ok_extend hok hl hu) ?_ ?_
      · intro k v hkv k' v' hkv'
        rcases List.mem_cons.mp hkv' with heq | hm
        · injection heq with hk2 hv2
          subst hk2
          subst hv2
          exact hpw k v (List.mem_cons_of_mem _ hkv) k' v' (List.mem_cons_self _ _)
        · exact hcompat k v (List.mem_cons_of_mem _ hkv) k' v' hm
      · intro k v hkv k' v' hkv'
        exact hpw k v (List.mem_cons_of_mem _ hkv) k' v' (List.mem_cons_of_mem _ hkv')
    · have hm0 : (p, v0) ∈ m := lookup_map_mem m p v0 hl
      have hvc : c = v0 :=
        (hcompat p c (List.mem_cons_self _ _) p v0 hm0).mp rfl
      subst hvc
      rw [build_mapping_cons_seen hl]
      refine ih m hok ?_ ?_
      · intro k v hkv k' v' hkv'
        exact hcompat k v (List.mem_cons_of_mem _ hkv) k' v' hkv'
      · intro k v hkv k' v' hkv'
        exact hpw k v (List.mem_cons_of_mem _ hkv) k' v' (List.mem_cons_of_mem _ hkv')

/-- Step of `map_letters` when the head letter has a bound color. -/
lemma map_letters_cons_some {ch v : Char} {rest : List Char} {m : List (Char × Char)}
    (hl : lookup_map m ch = some v) :
    map_letters (ch :: rest) m =
      match map_letters rest m with
      | none => none
      | some vs => some (v :: vs) := by
  rw [map_letters, hl]

/-- When every letter is bound, `map_letters` substitutes the bound colors. -/
lemma map_letters_eq :
    ∀ (l : List Char) (m : List (Char × Char)),
      (∀ ch ∈ l, (lookup_map m ch).isSome) →
        map_letters l m = some (l.map (fun ch => (lookup_map m ch).getD ch)) := by
  intro l m
  induction l with
  | nil => intro _; rfl
  | cons ch rest ih =>
    intro h
    have hch := h ch (List.mem_cons_self _ _)
    rcases hl : lookup_map m ch with _ | v
    · rw [hl] at hch
      cases hch
    · rw [map_letters_cons_some hl, ih (fun c hc => h c (List.mem_cons_of_mem _ hc))]
      simp [hl]

/-- Every letter of an expanded pattern occurs in the compact pattern. -/
lemma expand_pattern_mem (pattern : List Char) :
    ∀ ch ∈ expand_pattern pattern, ch ∈ pattern := by
  intro ch hch
  unfold expand_pattern at hch
  split_ifs at hch with h1 h2 h3 h4
  · subst h1
    have hch2 : ch ∈ ['a', 'a', 'b', 'b', 'c', 'c'] := hch
    have h5 : ch = 'a' ∨ ch = 'b' ∨ ch = 'c' := by simpa using hch2
    show ch ∈ ['a', 'b', 'c']
    simpa using h5
  · subst h2
    have hch2 : ch ∈ ['a', 'a', 'b', 'c', 'b', 'c'] := hch
    have h5 : ch = 'a' ∨ ch = 'b' ∨ ch = 'c' := by
      rcases (by simpa using hch2 : ch = 'a' ∨ ch = 'b' ∨ ch = 'c' ∨ ch = 'b' ∨ ch = 'c')
        with h | h | h | h | h
      · exact Or.inl h
      · exact Or.inr (Or.inl h)
      · exact Or.inr (Or.inr h)
      · exact Or.inr (Or.inl h)
      · exact Or.inr (Or.inr h)
    show ch ∈ ['a', 'b', 'c', 'b', 'c']
    simp only [List.mem_cons]
    rcases h5 with rfl | rfl | rfl
    · simp
    · simp
    · simp
  · subst h3
    have hch2 : ch ∈ ['a', 'a', 'b', 'c', 'c', 'b'] := hch
    have h5 : ch = 'a' ∨ ch = 'b' ∨ ch = 'c' := by
      rcases (by simpa using hch2 : ch = 'a' ∨ ch = 'b' ∨ ch = 'c' ∨ ch = 'c' ∨ ch = 'b')
        with h | h | h | h | h
      · exact Or.inl h
      · exact Or.inr (Or.inl h)
      · exact Or.inr (Or.inr h)
      · exact Or.inr (Or.inr h)
      · exact Or.inr (Or.inl h)
    show ch ∈ ['a', 'b', 'c', 'b']
    simp only [List.mem_cons]
    rcases h5 with rfl | rfl | rfl
    · simp
    · simp
    · simp
  · subst h4
    exact hch
  · exact hch

/-- With enough input, every pattern letter appears as the first component
of some zipped pair. -/
lemma mem_fst_zip {pattern input : List Char} (hlen : pattern.length ≤ input.length) :
    ∀ a ∈ pattern, ∃ c, (a, c) ∈ pattern.zip input := by
  intro a ha
  have hmap := List.map_fst_zip pattern input hlen
  rw [← hmap] at ha
  rcases List.mem_map.mp ha with ⟨pr, hpr, hfst⟩
  rcases pr with ⟨p1, p2⟩
  have hp1 : p1 = a := hfst
  subst hp1
  exact ⟨p2, hpr⟩

/-- `match_pattern` on mismatched lengths fails. -/
lemma match_pattern_length_ne {ci pattern : List Char} (h : ci.length ≠ pattern.length) :
    match_pattern ci pattern = none := by
  rw [match_pattern, if_neg h]

/-- `match_pattern` on matched lengths reduces to the binding loop. -/
lemma match_pattern_length_eq {ci pattern : List Char} (h : ci.length = pattern.length) :
    match_pattern ci pattern =
      match build_mapping (pattern.zip ci) [] with
      | none => none
      | some m => map_letters (expand_pattern pattern) m := by
  rw [match_pattern, if_pos h]

/-- Any successful match is the expanded pattern under an injective binding
that agrees with the input on every position. -/
lemma match_pattern_binding {ci pattern r : List Char}
    (h : match_pattern ci pattern = some r) :
    ci.length = pattern.length ∧
      ∃ f : Char → Char,
        (∀ x ∈ pattern.zip ci, f x.1 = x.2) ∧
          (∀ a ∈ pattern, ∀ b ∈ pattern, f a = f b → a = b) ∧
            r = (expand_pattern pattern).map f := by
  by_cases hlen : ci.length = pattern.length
  case neg =>
    rw [match_pattern_length_ne hlen] at h
    cases h
  refine ⟨hlen, ?_⟩
  rw [match_pattern_length_eq hlen] at h
  rcases hb : build_mapping (pattern.zip ci) [] with _ | m
  · rw [hb] at h
    simp at h
  · rw [hb] at h
    have h2 : map_letters (expand_pattern pattern) m = some r := h
    have hok : map_ok m := build_mapping_map_ok _ _ _ hb map_ok_nil
    have hpairs : ∀ pr ∈ pattern.zip ci, lookup_map m pr.1 = some pr.2 :=
      build_mapping_lookup_pairs _ _ _ hb
    have hple : pattern.length ≤ ci.length := Nat.le_of_eq hlen.symm
    have hcover : ∀ a ∈ pattern, (lookup_map m a).isSome := by
      intro a ha
      rcases mem_fst_zip hple a ha with ⟨c, hc⟩
      have := hpairs (a, c) hc
      rw [this]
      rfl
    refine ⟨fun ch => (lookup_map m ch).getD ch, ?_, ?_, ?_⟩
    · intro x hx
      have := hpairs x hx
      simp [this]
    · intro a ha b hbp hfab
      rcases mem_fst_zip hple a ha with ⟨ca, hca⟩
      rcases mem_fst_zip hple b hbp with ⟨cb, hcb⟩
      have la : lookup_map m a = some ca := hpairs (a, ca) hca
      have lb : lookup_map m b = some cb := hpairs (b, cb) hcb
      simp only [la, lb, Option.getD_some] at hfab
      have ma : (a, ca) ∈ m := lookup_map_mem m a ca la
      have mb : (b, cb) ∈ m := lookup_map_mem m b cb lb
      exact (hok a ca b cb ma mb).mpr hfab
    · have hexp : ∀ ch ∈ expand_pattern pattern, (lookup_map m ch).isSome :=
        fun ch hch => hcover ch (expand_pattern_mem pattern ch hch)
      have h3 := map_letters_eq _ _ hexp
      rw [h3] at h2
      injection h2 with h4
      exact h4.symm

/-- C8: `match_pattern` fails exactly on length mismatch; on equal lengths it
succeeds exactly when positions sharing a pattern letter carry the same
color and distinct letters carry distinct colors (stated on the zipped
position pairs); and a success is the expanded pattern with every letter
replaced by its bound color under an injective, input-consistent binding. -/
theorem match_pattern_spec :
    ∀ compressed_input pattern : List Char,
      (compressed_input.length ≠ pattern.length →
        match_pattern compressed_input pattern = none) ∧
      (compressed_input.length = pattern.length →
        ((match_pattern compressed_input pattern).isSome ↔
          ∀ x ∈ pattern.zip compressed_input, ∀ y ∈ pattern.zip compressed_input,
            (x.1 = y.1 ↔ x.2 = y.2))) ∧
      (∀ r, match_pattern compressed_input pattern = some r →
        ∃ f : Char → Char,
          (∀ x ∈ pattern.zip compressed_input, f x.1 = x.2) ∧
            (∀ a ∈ pattern, ∀ b ∈ pattern, f a = f b → a = b) ∧
              r = (expand_pattern pattern).map f) := by
  intro ci pattern
  refine ⟨fun h => match_pattern_length_ne h, ?_,
    fun r h => (match_pattern_binding h).2⟩
  intro hlen
  constructor
  · intro hsome
    rcases Option.isSome_iff_exists.mp hsome with ⟨r, hr⟩
    rcases match_pattern_binding hr with ⟨_, f, hzip, hinj, _⟩
    intro x hx y hy
    constructor
    · intro h1
      rw [← hzip x hx, ← hzip y hy, h1]
    · intro h2
      have hx1 : x.1 ∈ pattern := by
        have hmap := List.map_fst_zip pattern ci (Nat.le_of_eq hlen.symm)
        rw [← hmap]
        exact List.mem_map.mpr ⟨x, hx, rfl⟩
      have hy1 : y.1 ∈ pattern := by
        have hmap := List.map_fst_zip pattern ci (Nat.le_of_eq hlen.symm)
        rw [← hmap]
        exact List.mem_map.mpr ⟨y, hy, rfl⟩
      apply hinj x.1 hx1 y.1 hy1
      rw [hzip x hx, hzip y hy, h2]
  · intro hker
    have hb := build_mapping_isSome (pattern.zip ci) [] map_ok_nil
      (fun k v _ k' v' h' => absurd h' (List.not_mem_nil _))
      (fun k v hkv k' v' hkv' => hker (k, v) hkv (k', v') hkv')
    rcases hbs : build_mapping (pattern.zip ci) [] with _ | m
    · rw [hbs] at hb
      cases hb
    · have hpairs := build_mapping_lookup_pairs _ _ _ hbs
      have hcover : ∀ ch ∈ expand_pattern pattern, (lookup_map m ch).isSome := by
        intro ch hch
        have hchp := expand_pattern_mem pattern ch hch
        rcases mem_fst_zip (Nat.le_of_eq hlen.symm) ch hchp with ⟨c, hc⟩
        rw [hpairs (ch, c) hc]
        rfl
      rw [match_pattern_length_eq hlen, hbs]
      show (map_letters (expand_pattern pattern) m).isSome
      rw [map_letters_eq _ _ hcover]
      rfl

/-- C8 witness: applied at a concrete length-mismatched input. -/
theorem match_pattern_spec_witness :
    match_pattern (String.toList "12") (String.toList "abc") = none :=
  (match_pattern_spec (String.toList "12") (String.toList "abc")).1 (by decide)

/-- A successful `findSome?` comes from some member of the list. -/
lemma findSome_eq_some {α β : Type} :
    ∀ (l : List α) (f : α → Option β) (b : β),
      l.findSome? f = some b → ∃ a ∈ l, f a = some b := by
  intro l f b
  induction l with
  | nil => intro h; cases h
  | cons x xs ih =>
    intro h
    rw [List.findSome?_cons] at h
    rcases hx : f x with _ | v
    · rw [hx] at h
      have h2 : xs.findSome? f = some b := h
      rcases ih h2 with ⟨a, ha, hfa⟩
      exact ⟨a, List.mem_cons_of_mem _ ha, hfa⟩
    · rw [hx] at h
      have h2 : some v = some b := h
      injection h2 with h3
      subst h3
      exact ⟨x, List.mem_cons_self _ _, hx⟩

/-- A six-character code of shape `xxyyzz` with pairwise distinct colors is
a well-formed full tile code. -/
lemma wf_xxyyzz (x y z : Char) (hxy : x ≠ y) (hxz : x ≠ z) (hyz : y ≠ z) :
    full_code_wf [x, x, y, y, z, z] := by
  refine ⟨rfl, ?_, ?_⟩
  · have e1 : List.dedup [x, x, y, y, z, z] = [x, y, z] := by
      rw [List.dedup_cons_of_mem (by simp : x ∈ [x, y, y, z, z]),
        List.dedup_cons_of_not_mem (by simp [hxy, hxz] : x ∉ [y, y, z, z]),
        List.dedup_cons_of_mem (by simp : y ∈ [y, z, z]),
        List.dedup_cons_of_not_mem (by simp [hyz] : y ∉ [z, z]),
        List.dedup_cons_of_mem (by simp : z ∈ [z]),
        List.dedup_cons_of_not_mem (List.not_mem_nil z), List.dedup_nil]
    rw [e1]
    rfl
  · intro c hc
    rcases (by simpa using hc : c = x ∨ c = y ∨ c = z) with rfl | rfl | rfl
    · simp [List.count_cons, hxy, hxz]
    · simp [List.count_cons, Ne.symm hxy, hyz]
    · simp [List.count_cons, Ne.symm hxz, Ne.symm hyz]

/-- A six-character code of shape `xxyzyz` with pairwise distinct colors is
a well-formed full tile code. -/
lemma wf_xxyzyz (x y z : Char) (hxy : x ≠ y) (hxz : x ≠ z) (hyz : y ≠ z) :
    full_code_wf [x, x, y, z, y, z] := by
  refine ⟨rfl, ?_, ?_⟩
  · have e1 : List.dedup [x, x, y, z, y, z] = [x, y, z] := by
      rw [List.dedup_cons_of_mem (by simp : x ∈ [x, y, z, y, z]),
        List.dedup_cons_of_not_mem (by simp [hxy, hxz] : x ∉ [y, z, y, z]),
        List.dedup_cons_of_mem (by simp : y ∈ [z, y, z]),
        List.dedup_cons_of_mem (by simp : z ∈ [y, z]),
        List.dedup_cons_of_not_mem (by simp [hyz] : y ∉ [z]),
        List.dedup_cons_of_not_mem (List.not_mem_nil z), List.dedup_nil]
    rw [e1]
    rfl
  · intro c hc
    rcases (by simpa using hc : c = x ∨ c = y ∨ c = z ∨ c = y ∨ c = z)
      with rfl | rfl | rfl | rfl | rfl
    · simp [List.count_cons, hxy, hxz]
    · simp [List.count_cons, Ne.symm hxy, hyz]
    · simp [List.count_cons, Ne.symm hxz, Ne.symm hyz]
    · simp [List.count_cons, Ne.symm hxy, hyz]
    · simp [List.count_cons, Ne.symm hxz, Ne.symm hyz]

/-- A six-character code of shape `xxyzzy` with pairwise distinct colors is
a well-formed full tile code. -/
lemma wf_xxyzzy (x y z : Char) (hxy : x ≠ y) (hxz : x ≠ z) (hyz : y ≠ z) :
    full_code_wf [x, x, y, z, z, y] := by
  refine ⟨rfl, ?_, ?_⟩
  · have e1 : List.dedup [x, x, y, z, z, y] = [x, z, y] := by
      rw [List.dedup_cons_of_mem (by simp : x ∈ [x, y, z, z, y]),
        List.dedup_cons_of_not_mem (by simp [hxy, hxz] : x ∉ [y, z, z, y]),
        List.dedup_cons_of_mem (by simp : y ∈ [z, z, y]),
        List.dedup_cons_of_mem (by simp : z ∈ [z, y]),
        List.dedup_cons_of_not_mem (by simp [Ne.symm hyz] : z ∉ [y]),
        List.dedup_cons_of_not_mem (List.not_mem_nil y), List.dedup_nil]
    rw [e1]
    rfl
  · intro c hc
    rcases (by simpa using hc : c = x ∨ c = y ∨ c = z ∨ c = y)
      with rfl | rfl | rfl | rfl
    · simp [List.count_cons, hxy, hxz]
    · simp [List.count_cons, Ne.symm hxy, hyz]
    · simp [List.count_cons, Ne.symm hxz, Ne.symm hyz]
    · simp [List.count_cons, Ne.symm hxy, hyz]

/-- A successful bind against the registry pattern `abc` yields a
well-formed full tile code. -/
lemma match_abc_wf {s r : List Char}
    (h : match_pattern s (String.toList "abc") = some r) : full_code_wf r := by
  rcases match_pattern_binding h with ⟨_, f, _, hinj, hr⟩
  have hab : f 'a' ≠ f 'b' :=
    fun he => absurd (hinj 'a' (by decide) 'b' (by decide) he) (by decide)
  have hac : f 'a' ≠ f 'c' :=
    fun he => absurd (hinj 'a' (by decide) 'c' (by decide) he) (by decide)
  have hbc : f 'b' ≠ f 'c' :=
    fun he => absurd (hinj 'b' (by decide) 'c' (by decide) he) (by decide)
  have hexp : expand_pattern (String.toList "abc") = ['a', 'a', 'b', 'b', 'c', 'c'] := by
    decide
  rw [hexp] at hr
  simp only [List.map_cons, List.map_nil] at hr
  subst hr
  exact wf_xxyyzz _ _ _ hab hac hbc

/-- A successful bind against the registry pattern `abcbc` yields a
well-formed full tile code. -/
lemma match_abcbc_wf {s r : List Char}
    (h : match_pattern s (String.toList "abcbc") = some r) : full_code_wf r := by
  rcases match_pattern_binding h with ⟨_, f, _, hinj, hr⟩
  have hab : f 'a' ≠ f 'b' :=
    fun he => absurd (hinj 'a' (by decide) 'b' (by decide) he) (by decide)
  have hac : f 'a' ≠ f 'c' :=
    fun he => absurd (hinj 'a' (by decide) 'c' (by decide) he) (by decide)
  have hbc : f 'b' ≠ f 'c' :=
    fun he => absurd (hinj 'b' (by decide) 'c' (by decide) he) (by decide)
  have hexp : expand_pattern (String.toList "abcbc")
      = ['a', 'a', 'b', 'c', 'b', 'c'] := by decide
  rw [hexp] at hr
  simp only [List.map_cons, List.map_nil] at hr
  subst hr
  exact wf_xxyzyz _ _ _ hab hac hbc

/-- A successful bind against the registry pattern `abcb` yields a
well-formed full tile code. -/
lemma match_abcb_wf {s r : List Char}
    (h : match_pattern s (String.toList "abcb") = some r) : full_code_wf r := by
  rcases match_pattern_binding h with ⟨_, f, _, hinj, hr⟩
  have hab : f 'a' ≠ f 'b' :=
    fun he => absurd (hinj 'a' (by decide) 'b' (by decide) he) (by decide)
  have hac : f 'a' ≠ f 'c' :=
    fun he => absurd (hinj 'a' (by decide) 'c' (by decide) he) (by decide)
  have hbc : f 'b' ≠ f 'c' :=
    fun he => absurd (hinj 'b' (by decide) 'c' (by decide) he) (by decide)
  have hexp : expand_pattern (String.toList "abcb")
      = ['a', 'a', 'b', 'c', 'c', 'b'] := by decide
  rw [hexp] at hr
  simp only [List.map_cons, List.map_nil] at hr
  subst hr
  exact wf_xxyzzy _ _ _ hab hac hbc

/-- Dissecting a successful default-pattern run of `find_matching_type`. -/
lemma find_matching_default_cases {ci r : List Char}
    (h : find_matching_type ci none = some r) :
    ∃ pattern ∈ default_patterns, ∃ shift, shift < ci.length ∧
      match_pattern (rotate_string ci shift) pattern = some r := by
  have h2 : default_patterns.findSome? (fun pattern =>
      (List.range ci.length).findSome? (fun shift =>
        match match_pattern (rotate_string ci shift) pattern with
        | some r0 => if r0 = [] then none else some r0
        | none => none)) = some r := h
  rcases findSome_eq_some _ _ _ h2 with ⟨pat, hpat, hinner⟩
  rcases findSome_eq_some _ _ _ hinner with ⟨shift, hshift, hwrap⟩
  rcases hmp : match_pattern (rotate_string ci shift) pat with _ | r0
  · rw [hmp] at hwrap
    cases hwrap
  · rw [hmp] at hwrap
    have h3 : (if r0 = [] then none else some r0) = some r := hwrap
    by_cases hr0 : r0 = []
    · rw [if_pos hr0] at h3
      cases h3
    · rw [if_neg hr0] at h3
      injection h3 with h4
      subst h4
      exact ⟨pat, hpat, shift, List.mem_range.mp hshift, hmp⟩

/-- C9 counterexample: `find_matching_type` with the default pattern list
matches `121232` literally against `ababcb` and returns a code in which
color `2` occurs three times and color `3` once, violating the full-code
invariant. -/
theorem find_matching_type_invariant_false :
    find_matching_type (String.toList "121232") none
        = some (String.toList "121232") ∧
      ¬ full_code_wf (String.toList "121232") := by decide

/-- C9 amended: every code returned by `find_matching_type` with the default
pattern list either satisfies the full-code invariant (when it comes from
one of the three registry patterns `abc`, `abcbc`, `abcb`) or is a literal
match of the fourth, unexpanded pattern `ababcb`, which does not guarantee
the invariant. -/
theorem find_matching_type_invariant_amended :
    ∀ ci r : List Char, find_matching_type ci none = some r →
      full_code_wf r ∨
        ∃ shift, shift < ci.length ∧
          match_pattern (rotate_string ci shift) (String.toList "ababcb") = some r := by
  intro ci r h
  rcases find_matching_default_cases h with ⟨pat, hpat, shift, hlt, hmp⟩
  have hpat4 : pat = String.toList "abc" ∨ pat = String.toList "abcbc" ∨
      pat = String.toList "abcb" ∨ pat = String.toList "ababcb" := by
    simpa [default_patterns] using hpat
  rcases hpat4 with rfl | rfl | rfl | rfl
  · exact Or.inl (match_abc_wf hmp)
  · exact Or.inl (match_abcbc_wf hmp)
  · exact Or.inl (match_abcb_wf hmp)
  · exact Or.inr ⟨shift, hlt, hmp⟩

/-- C9 amended witness: on input `23131`, which matches `abcbc`, the result
satisfies the invariant (so the left disjunct holds). -/
theorem find_matching_type_invariant_amended_witness :
    full_code_wf (String.toList "223131") ∨
      ∃ shift, shift < (String.toList "23131").length ∧
        match_pattern (rotate_string (String.toList "23131") shift)
          (String.toList "ababcb") = some (String.toList "223131") :=
  find_matching_type_invariant_amended (String.toList "23131")
    (String.toList "223131") (by decide)
